import Mathlib

/-!
Verification of the stamp-dispenser minimum-count solver
(`src/StampDispenser.cpp`) against its natural-language specification.

The C++ class `StampDispenser` validates a list of stamp denominations
(`ValidateInput`), stores it (`m_denominationVector`), and answers
minimum-stamp-count queries (`CalcNumStampsToFillRequest`) through a
memoized recursion (`CalcNumStamps`).

Embedding choices:
* C++ `int` values are modelled as `Int` (denominations, memo entries) and
  the non-negative quantities that appear at run time (requests inside the
  recursion, stamp counts) as `Nat`.  For the non-negative operands that
  actually occur, C++ integer division and modulus agree with `Nat`
  division and modulus.  A negative denomination `d` gives `request / d ≤ 0`
  in C++, so the branch guarded by `request / d > 0` is skipped; the model
  maps it through `Int.toNat` to divisor `0`, whose `Nat` quotient is `0`,
  skipping the branch as well.  A zero denomination is an actual division
  by zero in C++ (undefined behaviour); the model uses the `Nat` convention
  `r / 0 = 0` and the divisors that the code would feed to `/` and `%` are
  tracked separately by `usedDivisors`.
* The fatal `assert` guards of the C++ code are modelled as explicit
  `Except` failures, following the specification's error model
  (`InvalidDenominationSet`, `InvalidRequest`).
* The recursion of `CalcNumStamps` terminates because each recursive call
  strictly decreases the request; the embedding makes this explicit with a
  fuel parameter.  `fuel = request + 1` always suffices (proved below), so
  the fuelled function at that fuel is the function computed by the code.
* The memoization vector `std::vector<int>` (entries initialized to `-1`)
  is modelled as a `List Int` threaded through the computation in
  state-passing style.
-/

/-- The C++ `INT_MAX` constant, as an `Int` (used by `ValidateInput`). -/
def INT_MAX : Int := 2147483647

/-- The C++ `INT_MAX` constant, as a `Nat` (initial value of `min_val` in
`CalcNumStamps`). -/
def INT_MAX_N : Nat := 2147483647

/-- The construction-time error of the specification
(`InvalidDenominationSet`), carrying which validation check failed. -/
inductive ValidationError where
  | empty
  | unsorted
  | negativeValue
  | missingUnit
deriving DecidableEq

/-- The query-time error of the specification (`InvalidRequest`). -/
inductive QueryError where
  | invalidRequest
deriving DecidableEq

/-- The loop of `ValidateInput` (lines 43-59): walks the denominations with
the previous value (`lastVal`, initially `INT_MAX`) and the `oneFound`
flag, failing at the first violated assertion and reporting `missingUnit`
if the loop finishes without seeing `1`. -/
def validateLoop : Int → Bool → List Int → Except ValidationError Unit
  | _, oneFound, [] => if oneFound then Except.ok () else Except.error ValidationError.missingUnit
  | lastVal, oneFound, x :: rest =>
    if lastVal < x then Except.error ValidationError.unsorted
    else if x < 0 then Except.error ValidationError.negativeValue
    else validateLoop x (oneFound || decide (x = 1)) rest

/-- `StampDispenser::ValidateInput` (lines 35-65): the empty check
(`assert(0 < numStampDenominations)`) followed by the loop. -/
def ValidateInput (l : List Int) : Except ValidationError Unit :=
  if l.length = 0 then Except.error ValidationError.empty
  else validateLoop INT_MAX false l

/-- The solver: holds the denomination vector stored by the constructor. -/
structure StampDispenser where
  m_denominationVector : List Int
deriving DecidableEq

/-- The constructor `StampDispenser::StampDispenser` (lines 79-90): runs
`ValidateInput` and on success stores the denominations unchanged. -/
def StampDispenser.create (l : List Int) : Except ValidationError StampDispenser :=
  match ValidateInput l with
  | Except.ok _ => Except.ok ⟨l⟩
  | Except.error e => Except.error e

/-- `StampDispenser::CalcNumStamps` (lines 133-159), fuelled.  The memo
vector is threaded in state-passing style: entry `-1` means "not yet
computed" (line 135 checks `memoizationVect[request] >= 0`), `request = 0`
returns `0` stamps, and otherwise the loop over the denominations folds
`min_val` (initially `INT_MAX`) over `request / d + CalcNumStamps
(request % d)` for every denomination with `request / d > 0`, finally
storing `min_val` at index `request`.  The fuel argument makes the strict
decrease of `request` along recursive calls explicit; `fuel = request + 1`
suffices (theorem `CalcNumStampsF_fuel`). -/
def CalcNumStampsF (denoms : List Int) : Nat → Nat → List Int → Nat × List Int
  | 0, _, memo => (0, memo)
  | fuel + 1, request, memo =>
    if 0 ≤ memo.getD request (-1) then ((memo.getD request (-1)).toNat, memo)
    else if request = 0 then (0, memo)
    else
      ((denoms.foldl (fun acc d =>
          if 0 < request / d.toNat then
            (min acc.1 (request / d.toNat +
                (CalcNumStampsF denoms fuel (request % d.toNat) acc.2).1),
              (CalcNumStampsF denoms fuel (request % d.toNat) acc.2).2)
          else acc) (INT_MAX_N, memo)).1,
        ((denoms.foldl (fun acc d =>
          if 0 < request / d.toNat then
            (min acc.1 (request / d.toNat +
                (CalcNumStampsF denoms fuel (request % d.toNat) acc.2).1),
              (CalcNumStampsF denoms fuel (request % d.toNat) acc.2).2)
          else acc) (INT_MAX_N, memo)).2).set request
          (Int.ofNat (denoms.foldl (fun acc d =>
            if 0 < request / d.toNat then
              (min acc.1 (request / d.toNat +
                  (CalcNumStampsF denoms fuel (request % d.toNat) acc.2).1),
                (CalcNumStampsF denoms fuel (request % d.toNat) acc.2).2)
            else acc) (INT_MAX_N, memo)).1))

/-- The value computed by `CalcNumStamps` for a non-negative request: a
fresh memo vector of `request + 1` entries, all `-1`, as built by
`CalcNumStampsToFillRequest` (lines 108-114), then the recursion. -/
def minCount (denoms : List Int) (r : Nat) : Nat :=
  (CalcNumStampsF denoms (r + 1) r (List.replicate (r + 1) (-1))).1

/-- `StampDispenser::CalcNumStampsToFillRequest` (lines 103-117): the
negative-request guard (`assert(request >= 0)`, modelled as
`InvalidRequest`), then the memoized recursion.  The returned dispenser
component makes explicit that the call leaves the solver unchanged. -/
def CalcNumStampsToFillRequest (s : StampDispenser) (request : Int) :
    Except QueryError Nat × StampDispenser :=
  if request < 0 then (Except.error QueryError.invalidRequest, s)
  else (Except.ok (minCount s.m_denominationVector request.toNat), s)

/-- The same recursion as `CalcNumStampsF` without the memo vector: the
plain mathematical recursion
`f 0 = 0`, `f r = min over usable d of (r / d + f (r % d))`,
fuelled.  `CalcNumStampsF` computes this function (theorem
`minCount_eq_pure`). -/
def minCountPureF (denoms : List Int) : Nat → Nat → Nat
  | 0, _ => 0
  | fuel + 1, r =>
    if r = 0 then 0
    else denoms.foldl (fun m d =>
      if 0 < r / d.toNat then
        min m (r / d.toNat + minCountPureF denoms fuel (r % d.toNat))
      else m) INT_MAX_N

/-- The un-memoized recursion at sufficient fuel. -/
def minCountPure (denoms : List Int) (r : Nat) : Nat :=
  minCountPureF denoms (r + 1) r

/-- The canonical minimum-coin-change recursion, written from the
specification's words (spec section 9): `g 0 = 0` and, for `r > 0`,
`g r = min over every denomination 0 < d ≤ r of (1 + g (r - d))`.
It is the comparison point for the refinement claim that the code's
recursion is not the canonical one. -/
def minCountCanonicalF (denoms : List Int) : Nat → Nat → Nat
  | 0, _ => 0
  | fuel + 1, r =>
    if r = 0 then 0
    else denoms.foldl (fun m d =>
      if 0 < d ∧ d ≤ (r : Int) then
        min m (1 + minCountCanonicalF denoms fuel (r - d.toNat))
      else m) INT_MAX_N

/-- The canonical recursion at sufficient fuel. -/
def minCountCanonical (denoms : List Int) (r : Nat) : Nat :=
  minCountCanonicalF denoms (r + 1) r

/-- Instrumentation: the divisors the code feeds to `/` and `%` during the
un-memoized call tree of `CalcNumStamps` on `r`.  At every visited request
`> 0` the loop evaluates `request / d` for every denomination `d` (the
branch test itself divides), and recurses on `request % d` for the usable
ones.  Memoization only prunes repeated subtrees, so this is a superset of
the divisors of the memoized run, with the same top-level divisors. -/
def usedDivisors (denoms : List Int) : Nat → Nat → List Int
  | 0, _ => []
  | fuel + 1, r =>
    if r = 0 then []
    else denoms ++ (denoms.map (fun d =>
      if 0 < r / d.toNat then usedDivisors denoms fuel (r % d.toNat) else [])).flatten

/-- Instrumentation: the request values visited by the un-memoized call
tree of `CalcNumStamps` on `r`; these are exactly the indices at which the
memo vector is read (line 135) and written (line 156). -/
def subRequests (denoms : List Int) : Nat → Nat → List Nat
  | 0, _ => []
  | fuel + 1, r =>
    r :: (if r = 0 then []
      else (denoms.map (fun d =>
        if 0 < r / d.toNat then subRequests denoms fuel (r % d.toNat) else [])).flatten)

/-- Invariant of the memo vector: every entry is either the `-1` sentinel
or the value of the un-memoized recursion at its index. -/
def memoInv (denoms : List Int) (memo : List Int) : Prop :=
  ∀ i, i < memo.length →
    memo.getD i (-1) = -1 ∨ memo.getD i (-1) = Int.ofNat (minCountPure denoms i)

/-- Which validation check a construction error reports, as a predicate on
the input list (used to state that errors identify the failing check). -/
def checkFailedOf : ValidationError → List Int → Prop
  | ValidationError.empty, l => l = []
  | ValidationError.unsorted, l => ¬ l.Chain' (· ≥ ·)
  | ValidationError.negativeValue, l => ∃ x ∈ l, x < 0
  | ValidationError.missingUnit, l => (1 : Int) ∉ l

/-! ## Basic helper lemmas -/

theorem getD_replicate_lt {x d : Int} {n i : Nat} (h : i < n) :
    (List.replicate n x).getD i d = x := by
  rw [List.getD_eq_getElem?_getD, List.getElem?_replicate, if_pos h]
  rfl

theorem getD_set_self {l : List Int} {i : Nat} {v d : Int} (h : i < l.length) :
    (l.set i v).getD i d = v := by
  rw [List.getD_eq_getElem?_getD, List.getElem?_set_self h]
  rfl

theorem getD_set_ne {l : List Int} {i j : Nat} {v d : Int} (h : i ≠ j) :
    (l.set i v).getD j d = l.getD j d := by
  rw [List.getD_eq_getElem?_getD, List.getElem?_set_ne h, ← List.getD_eq_getElem?_getD]

theorem div_pos_le {r d : Nat} (h : 0 < r / d) : d ≤ r := by
  by_contra hlt
  rw [Nat.div_eq_of_lt (Nat.lt_of_not_le hlt)] at h
  exact Nat.lt_irrefl 0 h

theorem div_pos_pos {r d : Nat} (h : 0 < r / d) : 0 < d := by
  rcases Nat.eq_zero_or_pos d with rfl | hd
  · rw [Nat.div_zero] at h
    exact absurd h (Nat.lt_irrefl 0)
  · exact hd

theorem mod_lt_of_div_pos {r d : Nat} (h : 0 < r / d) : r % d < r :=
  Nat.lt_of_lt_of_le (Nat.mod_lt r (div_pos_pos h)) (div_pos_le h)

/-! ## The un-memoized recursion: fuel irrelevance and unfolding -/

theorem minCountPureF_fuel (denoms : List Int) :
    ∀ (f₁ : Nat) {r f₂ : Nat}, r < f₁ → r < f₂ →
      minCountPureF denoms f₁ r = minCountPureF denoms f₂ r := by
  intro f₁
  induction f₁ with
  | zero => intro r f₂ h1 _; exact absurd h1 (Nat.not_lt_zero r)
  | succ a ih =>
    intro r f₂ h1 h2
    cases f₂ with
    | zero => exact absurd h2 (Nat.not_lt_zero r)
    | succ b =>
      by_cases hr : r = 0
      · subst hr; rfl
      · simp only [minCountPureF, if_neg hr]
        apply List.foldl_ext
        intro m d _
        by_cases hc : 0 < r / d.toNat
        · rw [if_pos hc, if_pos hc,
            ih (Nat.lt_of_lt_of_le (mod_lt_of_div_pos hc) (Nat.lt_succ_iff.mp h1))
              (Nat.lt_of_lt_of_le (mod_lt_of_div_pos hc) (Nat.lt_succ_iff.mp h2))]
        · rw [if_neg hc, if_neg hc]

theorem minCountPure_zero (denoms : List Int) : minCountPure denoms 0 = 0 := rfl

theorem minCountPureF_succ_def (denoms : List Int) (fuel r : Nat) :
    minCountPureF denoms (fuel + 1) r =
      if r = 0 then 0
      else denoms.foldl (fun m d =>
        if 0 < r / d.toNat then
          min m (r / d.toNat + minCountPureF denoms fuel (r % d.toNat))
        else m) INT_MAX_N := rfl

theorem minCountPure_succ (denoms : List Int) {r : Nat} (h : 0 < r) :
    minCountPure denoms r = denoms.foldl (fun m d =>
      if 0 < r / d.toNat then
        min m (r / d.toNat + minCountPure denoms (r % d.toNat))
      else m) INT_MAX_N := by
  conv_lhs => rw [minCountPure, minCountPureF_succ_def]
  rw [if_neg (Nat.pos_iff_ne_zero.mp h)]
  apply List.foldl_ext
  intro m d _
  by_cases hc : 0 < r / d.toNat
  · rw [if_pos hc, if_pos hc,
      minCountPureF_fuel denoms r (mod_lt_of_div_pos hc) (Nat.lt_succ_self _)]
    rfl
  · rw [if_neg hc, if_neg hc]

/-! ## Characterization of the fold that computes `min_val` -/

theorem foldMin_le_init (r : Nat) (f : Nat → Nat) :
    ∀ (l : List Int) (init : Nat),
      l.foldl (fun m d =>
        if 0 < r / d.toNat then min m (r / d.toNat + f (r % d.toNat)) else m) init ≤ init := by
  intro l
  induction l with
  | nil => intro init; exact Nat.le_refl init
  | cons a t ih =>
    intro init
    simp only [List.foldl_cons]
    by_cases hc : 0 < r / a.toNat
    · rw [if_pos hc]
      exact Nat.le_trans (ih _) (Nat.min_le_left _ _)
    · rw [if_neg hc]
      exact ih init

theorem foldMin_le_elem (r : Nat) (f : Nat → Nat) :
    ∀ (l : List Int) (init : Nat) (d : Int), d ∈ l → 0 < r / d.toNat →
      l.foldl (fun m d' =>
        if 0 < r / d'.toNat then min m (r / d'.toNat + f (r % d'.toNat)) else m) init ≤
        r / d.toNat + f (r % d.toNat) := by
  intro l
  induction l with
  | nil => intro init d hd; exact absurd hd (List.not_mem_nil d)
  | cons a t ih =>
    intro init d hd hc
    rcases List.mem_cons.mp hd with rfl | hmem
    · simp only [List.foldl_cons, if_pos hc]
      exact Nat.le_trans (foldMin_le_init r f t _) (Nat.min_le_right _ _)
    · simp only [List.foldl_cons]
      by_cases hca : 0 < r / a.toNat
      · rw [if_pos hca]; exact ih _ d hmem hc
      · rw [if_neg hca]; exact ih _ d hmem hc

theorem foldMin_attains (r : Nat) (f : Nat → Nat) :
    ∀ (l : List Int) (init : Nat),
      l.foldl (fun m d =>
        if 0 < r / d.toNat then min m (r / d.toNat + f (r % d.toNat)) else m) init = init ∨
      ∃ d ∈ l, 0 < r / d.toNat ∧
        l.foldl (fun m d' =>
          if 0 < r / d'.toNat then min m (r / d'.toNat + f (r % d'.toNat)) else m) init =
          r / d.toNat + f (r % d.toNat) := by
  intro l
  induction l with
  | nil => intro init; exact Or.inl rfl
  | cons a t ih =>
    intro init
    simp only [List.foldl_cons]
    by_cases hc : 0 < r / a.toNat
    · rw [if_pos hc]
      rcases ih (min init (r / a.toNat + f (r % a.toNat))) with he | ⟨d, hd, hcd, he⟩
      · rcases Nat.le_total init (r / a.toNat + f (r % a.toNat)) with hle | hle
        · left; rw [he, Nat.min_eq_left hle]
        · right
          exact ⟨a, List.mem_cons_self a t, hc, by rw [he, Nat.min_eq_right hle]⟩
      · right; exact ⟨d, List.mem_cons_of_mem a hd, hcd, he⟩
    · rw [if_neg hc]
      rcases ih init with he | ⟨d, hd, hcd, he⟩
      · left; exact he
      · right; exact ⟨d, List.mem_cons_of_mem a hd, hcd, he⟩

/-! ## Memoization correctness: `CalcNumStampsF` computes `minCountPure` -/

theorem CalcNumStampsF_succ_def (denoms : List Int) (fuel request : Nat) (memo : List Int) :
    CalcNumStampsF denoms (fuel + 1) request memo =
      if 0 ≤ memo.getD request (-1) then ((memo.getD request (-1)).toNat, memo)
      else if request = 0 then (0, memo)
      else
        ((denoms.foldl (fun acc d =>
            if 0 < request / d.toNat then
              (min acc.1 (request / d.toNat +
                  (CalcNumStampsF denoms fuel (request % d.toNat) acc.2).1),
                (CalcNumStampsF denoms fuel (request % d.toNat) acc.2).2)
            else acc) (INT_MAX_N, memo)).1,
          ((denoms.foldl (fun acc d =>
            if 0 < request / d.toNat then
              (min acc.1 (request / d.toNat +
                  (CalcNumStampsF denoms fuel (request % d.toNat) acc.2).1),
                (CalcNumStampsF denoms fuel (request % d.toNat) acc.2).2)
            else acc) (INT_MAX_N, memo)).2).set request
            (Int.ofNat (denoms.foldl (fun acc d =>
              if 0 < request / d.toNat then
                (min acc.1 (request / d.toNat +
                    (CalcNumStampsF denoms fuel (request % d.toNat) acc.2).1),
                  (CalcNumStampsF denoms fuel (request % d.toNat) acc.2).2)
              else acc) (INT_MAX_N, memo)).1)) := rfl

theorem memoInv_replicate (denoms : List Int) (n : Nat) :
    memoInv denoms (List.replicate n (-1)) := by
  intro i hi
  rw [List.length_replicate] at hi
  exact Or.inl (getD_replicate_lt hi)

theorem CalcNumStampsF_spec (denoms : List Int) :
    ∀ (fuel : Nat) {r : Nat} {memo : List Int}, r < fuel → r < memo.length →
      memoInv denoms memo →
      (CalcNumStampsF denoms fuel r memo).1 = minCountPure denoms r ∧
      (CalcNumStampsF denoms fuel r memo).2.length = memo.length ∧
      memoInv denoms (CalcNumStampsF denoms fuel r memo).2 := by
  intro fuel
  induction fuel with
  | zero => intro r memo h _ _; exact absurd h (Nat.not_lt_zero r)
  | succ n ih =>
    intro r memo hfuel hlen hinv
    rw [CalcNumStampsF_succ_def]
    by_cases hmemo : 0 ≤ memo.getD r (-1)
    · rcases hinv r hlen with hneg | hval
      · rw [hneg] at hmemo
        exact absurd hmemo (by decide)
      · rw [if_pos hmemo]
        refine ⟨?_, rfl, hinv⟩
        rw [hval]
        exact Int.toNat_ofNat _
    · rw [if_neg hmemo]
      by_cases hr : r = 0
      · subst hr
        rw [if_pos rfl]
        exact ⟨rfl, rfl, hinv⟩
      · rw [if_neg hr]
        have hrpos : 0 < r := Nat.pos_of_ne_zero hr
        have hfold : ∀ (l : List Int) (m : Nat) (mem : List Int),
            r < mem.length → memoInv denoms mem →
            (l.foldl (fun acc d =>
              if 0 < r / d.toNat then
                (min acc.1 (r / d.toNat +
                    (CalcNumStampsF denoms n (r % d.toNat) acc.2).1),
                  (CalcNumStampsF denoms n (r % d.toNat) acc.2).2)
              else acc) (m, mem)).1 =
              l.foldl (fun m' d =>
                if 0 < r / d.toNat then
                  min m' (r / d.toNat + minCountPure denoms (r % d.toNat))
                else m') m ∧
            (l.foldl (fun acc d =>
              if 0 < r / d.toNat then
                (min acc.1 (r / d.toNat +
                    (CalcNumStampsF denoms n (r % d.toNat) acc.2).1),
                  (CalcNumStampsF denoms n (r % d.toNat) acc.2).2)
              else acc) (m, mem)).2.length = mem.length ∧
            memoInv denoms (l.foldl (fun acc d =>
              if 0 < r / d.toNat then
                (min acc.1 (r / d.toNat +
                    (CalcNumStampsF denoms n (r % d.toNat) acc.2).1),
                  (CalcNumStampsF denoms n (r % d.toNat) acc.2).2)
              else acc) (m, mem)).2 := by
          intro l
          induction l with
          | nil => intro m mem _ hmi; exact ⟨rfl, rfl, hmi⟩
          | cons a t iht =>
            intro m mem hml hmi
            simp only [List.foldl_cons]
            by_cases hc : 0 < r / a.toNat
            · rw [if_pos hc, if_pos hc]
              have hrm : r % a.toNat < r := mod_lt_of_div_pos hc
              rcases ih (Nat.lt_of_lt_of_le hrm (Nat.lt_succ_iff.mp hfuel))
                  (Nat.lt_trans hrm hml) hmi with ⟨h1, h2, h3⟩
              rw [h1]
              rcases iht (min m (r / a.toNat + minCountPure denoms (r % a.toNat)))
                  ((CalcNumStampsF denoms n (r % a.toNat) mem).2)
                  (by rw [h2]; exact hml) h3 with ⟨g1, g2, g3⟩
              exact ⟨g1, g2.trans h2, g3⟩
            · rw [if_neg hc, if_neg hc]
              exact iht m mem hml hmi
        rcases hfold denoms INT_MAX_N memo hlen hinv with ⟨h1, h2, h3⟩
        refine ⟨?_, ?_, ?_⟩
        · rw [h1, ← minCountPure_succ denoms hrpos]
        · rw [List.length_set, h2]
        · intro i hi
          rw [List.length_set, h2] at hi
          by_cases hir : i = r
          · subst hir
            right
            rw [getD_set_self (by rw [h2]; exact hlen)]
            rw [h1, ← minCountPure_succ denoms hrpos]
          · rw [getD_set_ne (fun he => hir he.symm)]
            exact h3 i (by rw [h2]; exact hi)

theorem minCount_eq_pure (denoms : List Int) (r : Nat) :
    minCount denoms r = minCountPure denoms r :=
  (CalcNumStampsF_spec denoms (r + 1) (Nat.lt_succ_self r)
    (by rw [List.length_replicate]; exact Nat.lt_succ_self r)
    (memoInv_replicate denoms (r + 1))).1

theorem minCountPure_le (denoms : List Int) (hone : (1 : Int) ∈ denoms) :
    ∀ r, minCountPure denoms r ≤ r := by
  intro r
  induction r using Nat.strong_induction_on with
  | _ r ih =>
    rcases Nat.eq_zero_or_pos r with rfl | hr
    · exact Nat.le_refl 0
    · rw [minCountPure_succ denoms hr]
      have h1 : 0 < r / (1 : Int).toNat := by simpa using hr
      have := foldMin_le_elem r (minCountPure denoms) denoms INT_MAX_N 1 hone h1
      rw [Int.toNat_one, Nat.div_one, Nat.mod_one, minCountPure_zero, Nat.add_zero] at this
      exact this

/-! ## Validation: characterization of `ValidateInput` -/

theorem validateLoop_ok_iff :
    ∀ (l : List Int) (last : Int) (one : Bool),
      validateLoop last one l = Except.ok () ↔
        (List.Chain (· ≥ ·) last l ∧ (∀ x ∈ l, 0 ≤ x) ∧ (one = true ∨ (1 : Int) ∈ l)) := by
  intro l
  induction l with
  | nil =>
    intro last one
    cases one
    · simp [validateLoop]
    · simp [validateLoop]
  | cons x rest ih =>
    intro last one
    simp only [validateLoop]
    by_cases h1 : last < x
    · rw [if_pos h1]
      constructor
      · intro h; exact absurd h (by simp)
      · rintro ⟨hch, -, -⟩
        exact absurd (List.chain_cons.mp hch).1 (not_le.mpr h1)
    · rw [if_neg h1]
      by_cases h2 : x < 0
      · rw [if_pos h2]
        constructor
        · intro h; exact absurd h (by simp)
        · rintro ⟨-, hnn, -⟩
          exact absurd (hnn x (List.mem_cons_self x rest)) (not_le.mpr h2)
      · rw [if_neg h2, ih x (one || decide (x = 1))]
        constructor
        · rintro ⟨hch, hnn, hone⟩
          refine ⟨List.chain_cons.mpr ⟨not_lt.mp h1, hch⟩, ?_, ?_⟩
          · intro y hy
            rcases List.mem_cons.mp hy with rfl | hy'
            · exact not_lt.mp h2
            · exact hnn y hy'
          · rcases hone with hb | hm
            · rw [Bool.or_eq_true] at hb
              rcases hb with hb' | hb'
              · exact Or.inl hb'
              · exact Or.inr (List.mem_cons.mpr (Or.inl (of_decide_eq_true hb').symm))
            · exact Or.inr (List.mem_cons_of_mem x hm)
        · rintro ⟨hch, hnn, hone⟩
          refine ⟨(List.chain_cons.mp hch).2, fun y hy => hnn y (List.mem_cons_of_mem x hy), ?_⟩
          rcases hone with hb | hm
          · exact Or.inl (by rw [hb, Bool.true_or])
          · rcases List.mem_cons.mp hm with he | hm'
            · exact Or.inl (by rw [← he]; simp)
            · exact Or.inr hm'

theorem validateLoop_ne_empty :
    ∀ (l : List Int) (last : Int) (one : Bool),
      validateLoop last one l ≠ Except.error ValidationError.empty := by
  intro l
  induction l with
  | nil =>
    intro last one
    cases one
    · intro h; simp [validateLoop] at h
    · intro h; simp [validateLoop] at h
  | cons x rest ih =>
    intro last one h
    simp only [validateLoop] at h
    by_cases h1 : last < x
    · rw [if_pos h1] at h; simp at h
    · rw [if_neg h1] at h
      by_cases h2 : x < 0
      · rw [if_pos h2] at h; simp at h
      · rw [if_neg h2] at h
        exact ih x (one || decide (x = 1)) h

theorem validateLoop_unsorted :
    ∀ (l : List Int) (last : Int) (one : Bool),
      validateLoop last one l = Except.error ValidationError.unsorted →
      ¬ List.Chain (· ≥ ·) last l := by
  intro l
  induction l with
  | nil =>
    intro last one h
    cases one
    · simp [validateLoop] at h
    · simp [validateLoop] at h
  | cons x rest ih =>
    intro last one h hch
    simp only [validateLoop] at h
    by_cases h1 : last < x
    · exact absurd (List.chain_cons.mp hch).1 (not_le.mpr h1)
    · rw [if_neg h1] at h
      by_cases h2 : x < 0
      · rw [if_pos h2] at h; simp at h
      · rw [if_neg h2] at h
        exact ih x (one || decide (x = 1)) h (List.chain_cons.mp hch).2

theorem validateLoop_negative :
    ∀ (l : List Int) (last : Int) (one : Bool),
      validateLoop last one l = Except.error ValidationError.negativeValue →
      ∃ x ∈ l, x < 0 := by
  intro l
  induction l with
  | nil =>
    intro last one h
    cases one
    · simp [validateLoop] at h
    · simp [validateLoop] at h
  | cons x rest ih =>
    intro last one h
    simp only [validateLoop] at h
    by_cases h1 : last < x
    · rw [if_pos h1] at h; simp at h
    · rw [if_neg h1] at h
      by_cases h2 : x < 0
      · exact ⟨x, List.mem_cons_self x rest, h2⟩
      · rw [if_neg h2] at h
        rcases ih x (one || decide (x = 1)) h with ⟨y, hy, hyn⟩
        exact ⟨y, List.mem_cons_of_mem x hy, hyn⟩

theorem validateLoop_missing :
    ∀ (l : List Int) (last : Int) (one : Bool),
      validateLoop last one l = Except.error ValidationError.missingUnit →
      one = false ∧ (1 : Int) ∉ l := by
  intro l
  induction l with
  | nil =>
    intro last one h
    cases one
    · exact ⟨rfl, List.not_mem_nil 1⟩
    · simp [validateLoop] at h
  | cons x rest ih =>
    intro last one h
    simp only [validateLoop] at h
    by_cases h1 : last < x
    · rw [if_pos h1] at h; simp at h
    · rw [if_neg h1] at h
      by_cases h2 : x < 0
      · rw [if_pos h2] at h; simp at h
      · rw [if_neg h2] at h
        rcases ih x (one || decide (x = 1)) h with ⟨hb, hm⟩
        rcases Bool.or_eq_false_iff.mp hb with ⟨hb1, hb2⟩
        refine ⟨hb1, ?_⟩
        intro hmem
        rcases List.mem_cons.mp hmem with he | hm'
        · rw [← he] at hb2; simp at hb2
        · exact hm hm'

theorem ValidateInput_ok_one_mem {l : List Int}
    (h : ValidateInput l = Except.ok ()) : (1 : Int) ∈ l := by
  unfold ValidateInput at h
  by_cases hl : l.length = 0
  · rw [if_pos hl] at h; exact absurd h (by simp)
  · rw [if_neg hl] at h
    rcases (validateLoop_ok_iff l INT_MAX false).mp h with ⟨-, -, hone⟩
    rcases hone with hb | hm
    · exact absurd hb (by simp)
    · exact hm

theorem ValidateInput_ok_iff (l : List Int) (hb : ∀ x ∈ l, x ≤ INT_MAX) :
    ValidateInput l = Except.ok () ↔
      (l ≠ [] ∧ l.Chain' (· ≥ ·) ∧ (∀ x ∈ l, 0 ≤ x) ∧ (1 : Int) ∈ l) := by
  unfold ValidateInput
  by_cases hl : l.length = 0
  · rw [if_pos hl]
    have he : l = [] := List.length_eq_zero.mp hl
    subst he
    simp
  · rw [if_neg hl, validateLoop_ok_iff]
    have hne : l ≠ [] := by
      intro he; subst he; exact hl rfl
    constructor
    · rintro ⟨hch, hnn, hone⟩
      refine ⟨hne, ?_, hnn, ?_⟩
      · cases l with
        | nil => exact trivial
        | cons x rest => exact (List.chain_cons.mp hch).2
      · rcases hone with hb' | hm
        · exact absurd hb' (by simp)
        · exact hm
    · rintro ⟨-, hch, hnn, hone⟩
      refine ⟨?_, hnn, Or.inr hone⟩
      cases l with
      | nil => exact List.Chain.nil
      | cons x rest =>
        exact List.chain_cons.mpr ⟨hb x (List.mem_cons_self x rest), hch⟩

theorem ValidateInput_error {l : List Int} {e : ValidationError}
    (hb : ∀ x ∈ l, x ≤ INT_MAX) (h : ValidateInput l = Except.error e) :
    checkFailedOf e l := by
  unfold ValidateInput at h
  by_cases hl : l.length = 0
  · rw [if_pos hl] at h
    have he : ValidationError.empty = e := by
      have := h.symm
      simp only [Except.error.injEq] at this
      exact this.symm
    subst he
    exact List.length_eq_zero.mp hl
  · rw [if_neg hl] at h
    cases e with
    | empty => exact absurd h (validateLoop_ne_empty l INT_MAX false)
    | unsorted =>
      intro hch
      apply validateLoop_unsorted l INT_MAX false h
      cases l with
      | nil => exact List.Chain.nil
      | cons x rest =>
        exact List.chain_cons.mpr ⟨hb x (List.mem_cons_self x rest), hch⟩
    | negativeValue => exact validateLoop_negative l INT_MAX false h
    | missingUnit => exact (validateLoop_missing l INT_MAX false h).2

theorem create_ok_iff (l : List Int) :
    StampDispenser.create l = Except.ok ⟨l⟩ ↔ ValidateInput l = Except.ok () := by
  unfold StampDispenser.create
  cases hv : ValidateInput l with
  | ok u => cases u; simp
  | error e => simp

theorem create_error_iff (l : List Int) (e : ValidationError) :
    StampDispenser.create l = Except.error e ↔ ValidateInput l = Except.error e := by
  unfold StampDispenser.create
  cases hv : ValidateInput l with
  | ok u => cases u; simp
  | error e' => simp

/-! ## Instrumentation lemmas: divisors and visited sub-requests -/

theorem usedDivisors_subset (denoms : List Int) :
    ∀ (fuel r : Nat) (d : Int), d ∈ usedDivisors denoms fuel r → d ∈ denoms := by
  intro fuel
  induction fuel with
  | zero => intro r d h; simp [usedDivisors] at h
  | succ n ih =>
    intro r d h
    simp only [usedDivisors] at h
    by_cases hr : r = 0
    · rw [if_pos hr] at h; simp at h
    · rw [if_neg hr] at h
      rcases List.mem_append.mp h with h' | h'
      · exact h'
      · rcases List.mem_flatten.mp h' with ⟨l', hl', hd⟩
        rcases List.mem_map.mp hl' with ⟨a, _, rfl⟩
        by_cases hc : 0 < r / a.toNat
        · rw [if_pos hc] at hd
          exact ih _ d hd
        · rw [if_neg hc] at hd
          simp at hd

theorem subRequests_le (denoms : List Int) :
    ∀ (fuel r i : Nat), i ∈ subRequests denoms fuel r → i ≤ r := by
  intro fuel
  induction fuel with
  | zero => intro r i h; simp [subRequests] at h
  | succ n ih =>
    intro r i h
    simp only [subRequests] at h
    rcases List.mem_cons.mp h with rfl | h'
    · exact Nat.le.refl
    · by_cases hr : r = 0
      · rw [if_pos hr] at h'; simp at h'
      · rw [if_neg hr] at h'
        rcases List.mem_flatten.mp h' with ⟨l', hl', hi⟩
        rcases List.mem_map.mp hl' with ⟨a, _, rfl⟩
        by_cases hc : 0 < r / a.toNat
        · rw [if_pos hc] at hi
          exact Nat.le_trans (ih _ i hi) (Nat.mod_le r a.toNat)
        · rw [if_neg hc] at hi
          simp at hi

/-! ## The claims -/

/-- Claim C1: for every solver built from a valid denomination set (here
additionally positive, the domain on which the C++ divisions are defined)
and every request `0 < r ≤ INT_MAX`, `minCount r` is the minimum, over
every denomination `d` in the set with `d ≤ r`, of
`r / d + minCount (r % d)`: it is a lower bound of every such candidate
and is attained by one of them. -/
theorem C1_minCount_recursion (denoms : List Int) (r : Nat)
    (hval : ValidateInput denoms = Except.ok ())
    (hpos : ∀ d ∈ denoms, 0 < d)
    (hr : 0 < r) (hmax : r ≤ INT_MAX_N) :
    (∀ d ∈ denoms, d ≤ (r : Int) →
      minCount denoms r ≤ r / d.toNat + minCount denoms (r % d.toNat)) ∧
    (∃ d ∈ denoms, d ≤ (r : Int) ∧
      minCount denoms r = r / d.toNat + minCount denoms (r % d.toNat)) := by
  have hone := ValidateInput_ok_one_mem hval
  constructor
  · intro d hd hdr
    rw [minCount_eq_pure, minCount_eq_pure, minCountPure_succ denoms hr]
    have hdpos := hpos d hd
    have hc : 0 < r / d.toNat :=
      Nat.div_pos (Int.toNat_le.mpr hdr) (by omega)
    exact foldMin_le_elem r (minCountPure denoms) denoms INT_MAX_N d hd hc
  · simp only [minCount_eq_pure]
    rw [minCountPure_succ denoms hr]
    rcases foldMin_attains r (minCountPure denoms) denoms INT_MAX_N with hm' | ⟨d, hd, hc, he⟩
    · refine ⟨1, hone, by exact_mod_cast hr, ?_⟩
      rw [Int.toNat_one, Nat.div_one, Nat.mod_one, minCountPure_zero, Nat.add_zero]
      have hle := foldMin_le_elem r (minCountPure denoms) denoms INT_MAX_N 1 hone
        (by simpa using hr)
      rw [Int.toNat_one, Nat.div_one, Nat.mod_one, minCountPure_zero, Nat.add_zero] at hle
      omega
    · exact ⟨d, hd, Int.toNat_le.mp (div_pos_le hc), he⟩

theorem C1_witness :
    ValidateInput [6, 4, 1] = Except.ok () ∧ (∀ d ∈ ([6, 4, 1] : List Int), 0 < d) ∧
    0 < 8 ∧ 8 ≤ INT_MAX_N ∧
    ((∀ d ∈ ([6, 4, 1] : List Int), d ≤ ((8 : Nat) : Int) →
        minCount [6, 4, 1] 8 ≤ 8 / d.toNat + minCount [6, 4, 1] (8 % d.toNat)) ∧
      (∃ d ∈ ([6, 4, 1] : List Int), d ≤ ((8 : Nat) : Int) ∧
        minCount [6, 4, 1] 8 = 8 / d.toNat + minCount [6, 4, 1] (8 % d.toNat))) :=
  ⟨rfl, by decide, by decide, by decide,
    C1_minCount_recursion [6, 4, 1] 8 rfl (by decide) (by decide) (by decide)⟩

/-- Claim C2: construction succeeds exactly when the input list is
non-empty, non-increasing, non-negative and contains `1` (stored without
transformation), and a construction error identifies a check that really
fails on the input.  The hypothesis `x ≤ INT_MAX` records that every value
fits in a C++ `int`. -/
theorem C2_create_validation (l : List Int) (e : ValidationError)
    (hb : ∀ x ∈ l, x ≤ INT_MAX) :
    (StampDispenser.create l = Except.ok ⟨l⟩ ↔
      (l ≠ [] ∧ l.Chain' (· ≥ ·) ∧ (∀ x ∈ l, 0 ≤ x) ∧ (1 : Int) ∈ l)) ∧
    (StampDispenser.create l = Except.error e → checkFailedOf e l) := by
  constructor
  · rw [create_ok_iff]
    exact ValidateInput_ok_iff l hb
  · intro h
    exact ValidateInput_error hb ((create_error_iff l e).mp h)

theorem C2_witness :
    (∀ x ∈ ([1, 2] : List Int), x ≤ INT_MAX) ∧
    ((StampDispenser.create [1, 2] = Except.ok ⟨[1, 2]⟩ ↔
        (([1, 2] : List Int) ≠ [] ∧ ([1, 2] : List Int).Chain' (· ≥ ·) ∧
          (∀ x ∈ ([1, 2] : List Int), 0 ≤ x) ∧ (1 : Int) ∈ ([1, 2] : List Int))) ∧
      (StampDispenser.create [1, 2] = Except.error ValidationError.unsorted →
        checkFailedOf ValidationError.unsorted [1, 2])) :=
  ⟨by decide, C2_create_validation [1, 2] ValidationError.unsorted (by decide)⟩

/-- Claim C3: there is a valid denomination set and a request on which the
code's recursion (`minCount`, commit to `⌊r/d⌋` units of the chosen
denomination) differs from the canonical minimum-coin-change recursion
(`minCountCanonical`): with denominations `[5, 4, 1]` and request `13` the
code returns `4` while the canonical recursion returns `3` (5+4+4). -/
theorem C3_not_canonical :
    ∃ (denoms : List Int) (r : Nat),
      ValidateInput denoms = Except.ok () ∧
      minCount denoms r ≠ minCountCanonical denoms r :=
  ⟨[5, 4, 1], 13, rfl, by decide⟩

/-- Claim C4: for the solver built from `[6, 4, 1]`, the query for `8`
answers `2` (the recursion finds 4+4, not the greedy 6+1+1). -/
theorem C4_example_eight :
    StampDispenser.create [6, 4, 1] = Except.ok ⟨[6, 4, 1]⟩ ∧
    (CalcNumStampsToFillRequest ⟨[6, 4, 1]⟩ 8).1 = Except.ok 2 :=
  ⟨rfl, rfl⟩

/-- Claim C5: for every valid denomination set and request, any fuel
beyond the recursion depth bound gives the same result (the recursion
terminates), the value is defined (at most `r`, never the `INT_MAX`
sentinel), and for `r > 0` a candidate branch exists (the denomination
`1` is usable). -/
theorem C5_termination (denoms : List Int) (r fuel : Nat)
    (hval : ValidateInput denoms = Except.ok ()) (hfuel : r < fuel) :
    (CalcNumStampsF denoms fuel r (List.replicate (r + 1) (-1))).1 = minCount denoms r ∧
    minCount denoms r ≤ r ∧
    (r = 0 ∨ ∃ d ∈ denoms, 0 < r / d.toNat) := by
  have hone := ValidateInput_ok_one_mem hval
  refine ⟨?_, ?_, ?_⟩
  · rw [(CalcNumStampsF_spec denoms fuel hfuel
      (by rw [List.length_replicate]; exact Nat.lt_succ_self r)
      (memoInv_replicate denoms (r + 1))).1, minCount_eq_pure]
  · rw [minCount_eq_pure]
    exact minCountPure_le denoms hone r
  · rcases Nat.eq_zero_or_pos r with h | h
    · exact Or.inl h
    · exact Or.inr ⟨1, hone, by simpa using h⟩

theorem C5_witness :
    ValidateInput [1] = Except.ok () ∧ 3 < 7 ∧
    ((CalcNumStampsF [1] 7 3 (List.replicate (3 + 1) (-1))).1 = minCount [1] 3 ∧
      minCount [1] 3 ≤ 3 ∧ (3 = 0 ∨ ∃ d ∈ ([1] : List Int), 0 < 3 / d.toNat)) :=
  ⟨rfl, by decide, C5_termination [1] 3 7 rfl (by decide)⟩

/-- Claim C6: for every valid denomination set, `minCount 0 = 0`. -/
theorem C6_minCount_zero (denoms : List Int)
    (_hval : ValidateInput denoms = Except.ok ()) :
    minCount denoms 0 = 0 := rfl

theorem C6_witness : minCount [1] 0 = 0 :=
  C6_minCount_zero [1] rfl

/-- Claim C7: for every solver and every negative request, the query fails
with `InvalidRequest` and leaves the solver unchanged. -/
theorem C7_negative_request (s : StampDispenser) (request : Int)
    (h : request < 0) :
    CalcNumStampsToFillRequest s request = (Except.error QueryError.invalidRequest, s) := by
  unfold CalcNumStampsToFillRequest
  rw [if_pos h]

theorem C7_witness :
    CalcNumStampsToFillRequest ⟨[1]⟩ (-1) = (Except.error QueryError.invalidRequest, ⟨[1]⟩) :=
  C7_negative_request ⟨[1]⟩ (-1) (by decide)

/-- Claim C9: a query never mutates the stored denomination vector, and a
repeated query with the same request returns the same result. -/
theorem C9_idempotent_no_mutation (s : StampDispenser) (request : Int) :
    (CalcNumStampsToFillRequest s request).2 = s ∧
    (CalcNumStampsToFillRequest (CalcNumStampsToFillRequest s request).2 request).1 =
      (CalcNumStampsToFillRequest s request).1 := by
  by_cases h : request < 0
  · simp [CalcNumStampsToFillRequest, h]
  · simp [CalcNumStampsToFillRequest, h]

/-- Claim C8: for the solver built from `[90, 30, 24, 10, 6, 2, 1]`, the
query for `18` answers `3`. -/
theorem C8_example_eighteen :
    StampDispenser.create [90, 30, 24, 10, 6, 2, 1] =
      Except.ok ⟨[90, 30, 24, 10, 6, 2, 1]⟩ ∧
    (CalcNumStampsToFillRequest ⟨[90, 30, 24, 10, 6, 2, 1]⟩ 18).1 = Except.ok 3 :=
  ⟨rfl, rfl⟩

/-- Claim C10, counterexample: the set `[1, 0]` is accepted by validation
(it is non-increasing, non-negative and contains `1`), yet the query for
request `1` feeds the divisor `0` to `/` — a division by zero in the C++
code — so it is false that every division during a query on an accepted
set has a nonzero divisor. -/
theorem C10_counterexample :
    ValidateInput [1, 0] = Except.ok () ∧
    (0 : Int) ∈ usedDivisors [1, 0] (1 + 1) 1 :=
  ⟨rfl, by decide⟩

/-- Claim C10, amended: for every denomination set accepted by validation
all of whose elements are positive, every divisor fed to `/` or `%` during
a query is nonzero, and every memo-table index (every visited sub-request)
is at most the request. -/
theorem C10_amended_safety (denoms : List Int) (fuel r : Nat)
    (_hacc : ValidateInput denoms = Except.ok ())
    (hpos : ∀ d ∈ denoms, 0 < d) :
    (∀ d ∈ usedDivisors denoms fuel r, d ≠ 0) ∧
    (∀ i ∈ subRequests denoms fuel r, i ≤ r) := by
  constructor
  · intro d hd
    have hmem := usedDivisors_subset denoms fuel r d hd
    exact (hpos d hmem).ne'
  · intro i hi
    exact subRequests_le denoms fuel r i hi

theorem C10_witness :
    ValidateInput [1] = Except.ok () ∧ (∀ d ∈ ([1] : List Int), 0 < d) ∧
    ((∀ d ∈ usedDivisors [1] 2 1, d ≠ 0) ∧ (∀ i ∈ subRequests [1] 2 1, i ≤ 1)) :=
  ⟨rfl, by decide, C10_amended_safety [1] 2 1 rfl (by decide)⟩
